import Mathlib

/-!
Verification development for the `lst` directory-listing tool.

The definitions below are a shallow embedding of the Rust sources:
  - `src/core/filters.rs`   (hidden/skip predicates)
  - `src/core/search.rs`    (search-filter builder, print predicate)
  - `src/core/tree.rs`      (entry walker)
  - `src/cli/args.rs`       (effective_depth)
  - `src/output/terminal.rs` (character sets)
  - `src/output/formatter.rs` (indent generation, last-child map)
  - `src/output/printer.rs`  (line printing, two-pass and streaming renderers,
                              JSON tree builder)

Filesystem paths are modelled as lists of components (`FsPath`); `Path::parent`
is dropping the last component (returning `none` on the empty path, as Rust
returns `None` for a bare root).  Strings are Lean `String`s; Rust's
`to_ascii_lowercase` corresponds per character to `Char.toLower`, which also
lowercases exactly the ASCII range.
-/

namespace Lst

/-- A filesystem path, as its list of components below the filesystem root. -/
abbrev FsPath := List String

/-- Rust `Path::parent`: strip the last component; `None` on the root/empty path. -/
def parent? (p : FsPath) : Option FsPath :=
  if p.isEmpty then none else some p.dropLast

/-- The set of paths inserted by the `while let Some(parent) = path.parent()`
loop in `build_search_filter` (src/core/search.rs:36-39): the loop inserts
`p.dropLast`, `p.dropLast.dropLast`, ..., down to the empty (filesystem-root)
path, i.e. exactly the proper ancestors `p.take k` for `k < p.length`.  Only
set membership of the result is observable, so the enumeration order is
irrelevant. -/
def ancestorChain (p : FsPath) : List FsPath :=
  (List.range p.length).map fun k => p.take k

/-- A walked directory entry (the fields of `walkdir::DirEntry` that the
program reads: path, file name, depth, file type, and the result of the
`metadata()` size lookup, `none` standing for an `Err`). -/
structure Entry where
  path : FsPath
  depth : Nat
  isDir : Bool
  metadataSize : Option Nat
deriving DecidableEq, Repr

instance : Inhabited Entry := ⟨⟨[], 0, false, none⟩⟩

/-- Rust `entry.file_name()`: the final path component. -/
def Entry.name (e : Entry) : String := e.path.getLastD ("")

/-- Embeds `is_hidden` (src/core/filters.rs:5-11): name starts with `.` and is
neither `.` nor `..`. -/
def is_hidden (name : String) : Bool :=
  (name.data.head? == some '.') && name != "." && name != ".."

/-- Rust `str::to_ascii_lowercase`: lowercase exactly the ASCII uppercase
letters, character by character (`Char.toLower` is the same ASCII-only map). -/
def to_ascii_lowercase (s : String) : String := ⟨s.data.map Char.toLower⟩

/-- Rust `str::contains(needle)`: substring test.  On valid UTF-8 a byte-level
substring occurrence coincides with a character-level infix occurrence, so it
is modelled as an executable infix test on the character lists. -/
def str_contains (hay needle : String) : Bool :=
  hay.data.tails.any fun t => needle.data.isPrefixOf t

/-- The matching rule used both by `build_search_filter` (there via a
single-pattern `AhoCorasick` matcher, whose `is_match` on one lowercased
pattern is exactly a substring test) and by `should_print_entry`
(src/core/search.rs:31-33 and 60-63): case-insensitive substring match of the
pattern against the bare name. -/
def name_matches (name pattern : String) : Bool :=
  str_contains (to_ascii_lowercase name) (to_ascii_lowercase pattern)

/-- Embeds `build_search_filter` (src/core/search.rs:14-45).  The Rust code
inserts the ancestor chain of every matching, non-excluded entry into one
concurrent set (`DashSet`) from a parallel iterator; only membership in the
resulting set is observable, so the set is modelled as the concatenated list
of inserted chains, read through `∈`. -/
def build_search_filter (entries : List Entry) (pattern : String)
    (show_hidden : Bool) : List FsPath :=
  entries.flatMap fun entry =>
    if entry.isDir && !show_hidden && is_hidden entry.name then []
    else if name_matches entry.name pattern then ancestorChain entry.path
    else []

/-- Embeds `should_print_entry` (src/core/search.rs:48-67). -/
def should_print_entry (entry : Entry) (search_pattern : Option String)
    (show_dirs : List FsPath) (show_hidden : Bool) : Bool :=
  match search_pattern with
  | some pattern =>
    if entry.isDir && !show_hidden && is_hidden entry.name then false
    else name_matches entry.name pattern || show_dirs.contains entry.path
  | none => true

/-! Helper lemmas about the ancestor chain and the retained set. -/

theorem mem_ancestorChain (p q : FsPath) :
    q ∈ ancestorChain p ↔ q <+: p ∧ q ≠ p := by
  unfold ancestorChain
  rw [List.mem_map]
  constructor
  · rintro ⟨k, hk, rfl⟩
    rw [List.mem_range] at hk
    refine ⟨List.take_prefix k p, ?_⟩
    intro h
    have := congrArg List.length h
    rw [List.length_take] at this
    omega
  · rintro ⟨hpre, hne⟩
    refine ⟨q.length, ?_, ?_⟩
    · rw [List.mem_range]
      rcases Nat.lt_or_ge q.length p.length with h | h
      · exact h
      · exfalso
        obtain ⟨t, rfl⟩ := hpre
        have : t = [] := by
          cases t with
          | nil => rfl
          | cons x xs =>
            rw [List.length_append] at h
            simp at h
        exact hne (by simp [this])
    · obtain ⟨t, rfl⟩ := hpre
      simp

/-- Whether `build_search_filter` keeps an entry for matching purposes:
not a hidden directory (unless hidden entries are shown) and name matches. -/
def filter_keeps (e : Entry) (pattern : String) (show_hidden : Bool) : Bool :=
  !(e.isDir && !show_hidden && is_hidden e.name) && name_matches e.name pattern

theorem mem_build_search_filter (entries : List Entry) (pattern : String)
    (sh : Bool) (q : FsPath) :
    q ∈ build_search_filter entries pattern sh ↔
      ∃ e ∈ entries, filter_keeps e pattern sh = true ∧ q <+: e.path ∧ q ≠ e.path := by
  unfold build_search_filter
  rw [List.mem_flatMap]
  constructor
  · rintro ⟨e, he, hq⟩
    refine ⟨e, he, ?_⟩
    by_cases h1 : (e.isDir && !sh && is_hidden e.name) = true
    · simp [h1] at hq
    · simp only [Bool.not_eq_true] at h1
      rw [h1] at hq
      simp only [Bool.false_eq_true, if_false] at hq
      by_cases h2 : name_matches e.name pattern = true
      · rw [h2] at hq
        simp only [if_true] at hq
        obtain ⟨hpre, hne⟩ := (mem_ancestorChain e.path q).mp hq
        exact ⟨by simp [filter_keeps, h1, h2], hpre, hne⟩
      · simp only [Bool.not_eq_true] at h2
        rw [h2] at hq
        simp at hq
  · rintro ⟨e, he, hkeep, hpre, hne⟩
    refine ⟨e, he, ?_⟩
    simp only [filter_keeps, Bool.and_eq_true, Bool.not_eq_true'] at hkeep
    rw [hkeep.1]
    simp only [Bool.false_eq_true, if_false, hkeep.2, if_true]
    exact (mem_ancestorChain e.path q).mpr ⟨hpre, hne⟩

/-- Claim C4: for every pattern and every matching, non-excluded entry `M` of
the walked collection, `build_search_filter` inserts every proper ancestor of
`M`'s path (in particular every proper ancestor above the scan root) into the
retained set; the result is a pure set of paths, with membership idempotent
under re-inserting an entry already present and generated independently per
match. -/
theorem claim_C4_ancestor_closure (entries : List Entry) (pattern : String)
    (sh : Bool) (M : Entry) (hM : M ∈ entries)
    (hkeep : filter_keeps M pattern sh = true) :
    (∀ q : FsPath, q <+: M.path → q ≠ M.path →
        q ∈ build_search_filter entries pattern sh) ∧
    (∀ q : FsPath, q ∈ build_search_filter (M :: entries) pattern sh ↔
        q ∈ build_search_filter entries pattern sh) ∧
    (∀ q : FsPath, q ∈ build_search_filter entries pattern sh ↔
        ∃ e ∈ entries, filter_keeps e pattern sh = true ∧ q <+: e.path ∧ q ≠ e.path) := by
  refine ⟨?_, ?_, fun q => mem_build_search_filter entries pattern sh q⟩
  · intro q hpre hne
    exact (mem_build_search_filter entries pattern sh q).mpr ⟨M, hM, hkeep, hpre, hne⟩
  · intro q
    rw [mem_build_search_filter, mem_build_search_filter]
    constructor
    · rintro ⟨e, he, h⟩
      rcases List.mem_cons.mp he with rfl | he'
      · exact ⟨e, hM, h⟩
      · exact ⟨e, he', h⟩
    · rintro ⟨e, he, h⟩
      exact ⟨e, List.mem_cons.mpr (Or.inr he), h⟩

/-- Claim C4 witness: the theorem applied at a concrete matching entry. -/
theorem claim_C4_witness :
    ["r"] ∈ build_search_filter [⟨["r", "a", "b"], 2, false, none⟩] "B" false :=
  (claim_C4_ancestor_closure [⟨["r", "a", "b"], 2, false, none⟩] "B" false
      ⟨["r", "a", "b"], 2, false, none⟩ (by decide) (by decide)).1
    ["r"] ⟨["a", "b"], rfl⟩ (by decide)

/-- Claim C10: every member of the retained set is a proper ancestor of the
path of some entry whose case-folded name contains the case-folded pattern
(the set has no other members), and the chain inserted for a match runs
through the scan root all the way up to the filesystem root (the empty path). -/
theorem claim_C10_retained_set_members (entries : List Entry) (pattern : String)
    (sh : Bool) :
    (∀ q ∈ build_search_filter entries pattern sh,
        ∃ e ∈ entries, name_matches e.name pattern = true ∧ q <+: e.path ∧ q ≠ e.path) ∧
    (∀ M ∈ entries, filter_keeps M pattern sh = true →
        ∀ root : FsPath, root <+: M.path → root ≠ M.path →
          root ∈ build_search_filter entries pattern sh ∧
          [] ∈ build_search_filter entries pattern sh) := by
  constructor
  · intro q hq
    obtain ⟨e, he, hkeep, hpre, hne⟩ := (mem_build_search_filter entries pattern sh q).mp hq
    simp only [filter_keeps, Bool.and_eq_true] at hkeep
    exact ⟨e, he, hkeep.2, hpre, hne⟩
  · intro M hM hkeep root hpre hne
    have hMne : M.path ≠ [] := by
      rintro hnil
      obtain ⟨t, ht⟩ := hpre
      rw [hnil] at ht
      have : root = [] := by
        cases root with
        | nil => rfl
        | cons x xs => simp at ht
      exact hne (this.trans hnil.symm)
    constructor
    · exact (mem_build_search_filter entries pattern sh root).mpr ⟨M, hM, hkeep, hpre, hne⟩
    · exact (mem_build_search_filter entries pattern sh []).mpr
        ⟨M, hM, hkeep, ⟨M.path, rfl⟩, fun h => hMne h.symm⟩

/-- Claim C10 witness: the theorem applied at a concrete entry collection. -/
theorem claim_C10_witness :
    ∃ e ∈ [Entry.mk ["r", "a", "b"] 2 false none],
      name_matches e.name ("B") = true ∧ ["r", "a"] <+: e.path ∧ ["r", "a"] ≠ e.path :=
  (claim_C10_retained_set_members [⟨["r", "a", "b"], 2, false, none⟩] "B" false).1
    ["r", "a"] (by decide)

/-- Claim C5: with an active pattern, the print decision keeps an entry iff it
is not a hidden directory excluded by the `show_hidden` rule and either its
name matches the pattern or its path is in the retained set. -/
theorem claim_C5_filter_decision (e : Entry) (p : String) (S : List FsPath)
    (sh : Bool) :
    should_print_entry e (some p) S sh =
      (!(e.isDir && !sh && is_hidden e.name) &&
        (name_matches e.name p || S.contains e.path)) := by
  by_cases h : (e.isDir && !sh && is_hidden e.name) = true
  · simp [should_print_entry, h]
  · simp only [Bool.not_eq_true] at h
    simp [should_print_entry, h]

/-- Claim C9: with no search pattern, `should_print_entry` keeps every entry,
regardless of the retained set, the hidden flag, or the entry itself. -/
theorem claim_C9_no_pattern_keeps_all (e : Entry) (S : List FsPath) (sh : Bool) :
    should_print_entry e none S sh = true := rfl

/-- Claim C7: the match predicate holds iff the case-folded pattern occurs as
a substring (infix) of the case-folded bare name, and its outcome is invariant
under any change of letter case in the name or the pattern. -/
theorem claim_C7_case_insensitive_substring (n n' p p' : String)
    (hn : to_ascii_lowercase n' = to_ascii_lowercase n)
    (hp : to_ascii_lowercase p' = to_ascii_lowercase p) :
    (name_matches n p = true ↔
      (to_ascii_lowercase p).data <:+: (to_ascii_lowercase n).data) ∧
    name_matches n' p' = name_matches n p := by
  constructor
  · unfold name_matches str_contains
    rw [List.any_eq_true, List.infix_iff_prefix_suffix]
    constructor
    · rintro ⟨t, ht, hpre⟩
      exact ⟨t, (by simpa using hpre), (List.mem_tails _ _).mp ht⟩
    · rintro ⟨t, hpre, hsuf⟩
      exact ⟨t, (List.mem_tails _ _).mpr hsuf, by simpa using hpre⟩
  · unfold name_matches
    rw [hn, hp]

/-- Claim C7 witness: the theorem applied at concrete names and patterns. -/
theorem claim_C7_witness :
    (name_matches ("Hello.TXT") ("o.tx") = true ↔
      (to_ascii_lowercase ("o.tx")).data <:+: (to_ascii_lowercase ("Hello.TXT")).data) ∧
    name_matches ("hellO.txt") ("O.TX") = name_matches ("Hello.TXT") ("o.tx") :=
  claim_C7_case_insensitive_substring ("Hello.TXT") ("hellO.txt") ("o.tx") ("O.TX")
    (by decide) (by decide)

/-! Rendering model: character sets (src/output/terminal.rs), formatting
helpers (src/output/formatter.rs), line printing and the two renderers
(src/output/printer.rs). -/

/-- Embeds `CharacterSet` (src/output/terminal.rs:5-10).  `detect()` is an
environment lookup, so the charset is a parameter below. -/
inductive CharacterSet where
  | Unicode : CharacterSet
  | Ascii : CharacterSet
deriving DecidableEq, Repr

/-- Embeds `CharacterSet::branch_middle` (src/output/terminal.rs:23-28). -/
def CharacterSet.branch_middle : CharacterSet → String
  | .Unicode => "├── "
  | .Ascii => "+-- "

/-- Embeds `CharacterSet::branch_last` (src/output/terminal.rs:31-36). -/
def CharacterSet.branch_last : CharacterSet → String
  | .Unicode => "└── "
  | .Ascii => "`-- "

/-- Embeds `CharacterSet::continuation` (src/output/terminal.rs:39-44). -/
def CharacterSet.continuation : CharacterSet → String
  | .Unicode => "│   "
  | .Ascii => "|   "

/-- Embeds `CharacterSet::empty` (src/output/terminal.rs:47-49). -/
def CharacterSet.empty (_ : CharacterSet) : String := "    "

/-- ANSI color wrapping as produced by the `colored` crate (blue = 34,
green = 32, yellow = 33, reset = 0). -/
def ansi_wrap (code : String) (s : String) : String :=
  "\x1b[" ++ code ++ "m" ++ s ++ "\x1b[0m"

/-- Embeds `format_directory_name` (src/output/formatter.rs:13-19). -/
def format_directory_name (name : String) (use_color : Bool) : String :=
  if use_color then ansi_wrap ("34") name else name

/-- Embeds `format_file_name` (src/output/formatter.rs:22-28). -/
def format_file_name (name : String) (use_color : Bool) : String :=
  if use_color then ansi_wrap ("32") name else name

/-- Embeds `format_size_colored` (src/output/formatter.rs:31-37). -/
def format_size_colored (size : String) (use_color : Bool) : String :=
  if use_color then ansi_wrap ("33") size else size

/-- Modelled from the spec: `format_file_size` (src/output/formatter.rs:8-10)
delegates to the external `humansize` crate (`format_size(size, DECIMAL)`),
which renders a byte count as a human-readable decimal string; the claims
below depend only on it being a pure function of the size. -/
def format_file_size (size : Nat) : String :=
  if size < 1000 then toString size ++ " B"
  else if size < 1000 * 1000 then toString (size / 1000) ++ " kB"
  else if size < 1000 * 1000 * 1000 then toString (size / (1000 * 1000)) ++ " MB"
  else toString (size / (1000 * 1000 * 1000)) ++ " GB"

/-- The ancestor-column part of `TreeFormatter::generate_indent`
(src/output/formatter.rs:70-76): for each `i` in `0..depth-1`, the blank
glyph when `i < is_last.len() && is_last[i]`, else the continuation glyph. -/
def indent_columns (cs : CharacterSet) (depth : Nat) (is_last : List Bool) : String :=
  String.join ((List.range (depth - 1)).map fun i =>
    if is_last.getD i false then cs.empty else cs.continuation)

/-- Embeds `TreeFormatter::generate_indent` (src/output/formatter.rs:62-89):
empty at depth 0, else the ancestor columns followed by the branch glyph
chosen by `is_last[depth-1]` (defaulting to `false`). -/
def generate_indent (cs : CharacterSet) (depth : Nat) (is_last : List Bool) : String :=
  if depth = 0 then ("")
  else indent_columns cs depth is_last ++
    (if is_last.getD (depth - 1) false then cs.branch_last else cs.branch_middle)

/-- The per-entry body of `TreeFormatter::compute_last_child_map`
(src/output/formatter.rs:101-124) for an entry of depth `d` followed by the
suffix `rest` of the entry sequence: `vec![false; d]`, with slot `d-1` set
from whether the next entry is shallower, and each ancestor slot `a-1`
(for `1 <= a < d`) set to whether no following entry has depth exactly `a`. -/
def compute_is_last (d : Nat) (rest : List Entry) : List Bool :=
  if d = 0 then []
  else (List.range d).map fun i =>
    if i = d - 1 then
      match rest.head? with
      | some e2 => decide (e2.depth < d)
      | none => true
    else !(rest.any fun e2 => e2.depth == i + 1)

/-- Embeds `TreeFormatter::compute_last_child_map`
(src/output/formatter.rs:93-128): the Rust loop over `idx` computes, for each
entry, its flags from the suffix `entries[idx+1..]`. -/
def compute_last_child_map : List Entry → List (List Bool)
  | [] => []
  | e :: rest => compute_is_last e.depth rest :: compute_last_child_map rest

/-- The text of one entry line without its indent, shared by both branches of
`print_entry_line` (src/output/printer.rs:201-219): `name/` for directories,
`name (size)` for files, with a failed metadata lookup degraded to size 0 via
`unwrap_or(0)`. -/
def entry_line_body (e : Entry) (use_color : Bool) : String :=
  if e.isDir then format_directory_name e.name use_color ++ "/"
  else
    format_file_name e.name use_color ++ " (" ++
      format_size_colored (format_file_size (e.metadataSize.getD 0)) use_color ++ ")"

/-- Embeds `print_entry_line` (src/output/printer.rs:201-219); the produced
line (without the trailing newline of `writeln!`). -/
def print_entry_line (e : Entry) (indent : String) (use_color : Bool) : String :=
  indent ++ entry_line_body e use_color

/-- An `ignore::DirEntry` as read by `print_entry_line_ignore`: the file type
may be unavailable (`entry.file_type()` is an `Option`), and the size is
looked up lazily via `std::fs::metadata`, which may fail. -/
structure IgnoreEntry where
  path : FsPath
  depth : Nat
  fileTypeIsDir : Option Bool
  fsMetadataSize : Option Nat
deriving DecidableEq, Repr

/-- Rust `entry.file_name()` for `ignore::DirEntry`. -/
def IgnoreEntry.name (e : IgnoreEntry) : String := e.path.getLastD ("")

/-- Embeds `print_entry_line_ignore` (src/output/printer.rs:222-242):
`file_type().map(is_dir).unwrap_or(false)` and
`fs::metadata(path).map(len).unwrap_or(0)`. -/
def print_entry_line_ignore (e : IgnoreEntry) (indent : String)
    (use_color : Bool) : String :=
  if e.fileTypeIsDir.getD false then
    indent ++ format_directory_name e.name use_color ++ "/"
  else
    indent ++ format_file_name e.name use_color ++ " (" ++
      format_size_colored (format_file_size (e.fsMetadataSize.getD 0)) use_color ++ ")"

/-- Embeds `print_tree` (src/output/printer.rs:245-289) as the list of lines
it writes: filter with `should_print_entry` (passing `show_hidden = true`, as
the Rust call site does), compute the last-child map, and render each entry
with `generate_indent`.  The charset is a parameter (the source picks
`CharacterSet::detect()` or `Unicode` from `use_color`). -/
def print_tree (cs : CharacterSet) (entries : List Entry)
    (search_pattern : Option String) (show_dirs : List FsPath)
    (use_color : Bool) : List String :=
  let filtered := entries.filter fun e =>
    should_print_entry e search_pattern show_dirs true
  List.zipWith (fun e fl => print_entry_line e (generate_indent cs e.depth fl) use_color)
    filtered (compute_last_child_map filtered)

/-- One iteration of the ancestor-stack update in `TreeWriter::write_streaming`
(src/output/printer.rs:419-446, walkdir branch): truncate or extend the
`ancestor_has_more` stack to the entry's depth, read the ancestor flags from
the stack, decide the entry's own last-child flag from the peeked next depth,
and store its negation back into the stack.  Returns the `is_last` vector for
this entry and the updated stack. -/
def stream_step (S : List Bool) (d : Nat) (next_depth : Option Nat) :
    List Bool × List Bool :=
  let S1 := if d < S.length then S.take d
            else if d > S.length then S ++ List.replicate (d - S.length) true
            else S
  let current_is_last : Bool :=
    match next_depth with
    | some nd => decide (nd < d)
    | none => true
  let is_last := (List.range d).map fun i =>
    if i + 1 < d then !(S1.getD i false) else current_is_last
  let S2 := if d > 0 then S1.set (d - 1) (!current_is_last) else S1
  (is_last, S2)

/-- The streaming loop of `TreeWriter::write_streaming` over an entry
sequence: each surviving entry is rendered with the flags from `stream_step`,
peeking at the next entry's depth (in the no-pattern walkdir branch every
walked entry survives, so the peeked entry is the next list element). -/
def stream_go (cs : CharacterSet) (use_color : Bool) :
    List Bool → List Entry → List String
  | _, [] => []
  | S, e :: rest =>
    let next_depth := rest.head?.map Entry.depth
    let step := stream_step S e.depth next_depth
    print_entry_line e (generate_indent cs e.depth step.1) use_color ::
      stream_go cs use_color step.2 rest

/-- Embeds the text-streaming path of `TreeWriter::write_streaming`
(src/output/printer.rs:293-463, walkdir branch, no search pattern): the lines
written for the walked entry sequence, starting from an empty ancestor stack. -/
def write_streaming (cs : CharacterSet) (use_color : Bool)
    (entries : List Entry) : List String :=
  stream_go cs use_color [] entries

/-- Stated from the claim C2 wording: at depth `d`, the flag is true iff no
later entry has depth `>= d` before an entry of depth `< d` appears (the
entries preceding the first depth `< d` entry are exactly
`takeWhile (d <= depth)` of the suffix). -/
def spec_is_last (depths : List Nat) (d : Nat) : Bool :=
  (depths.takeWhile fun x => decide (d ≤ x)).isEmpty

/-! Helper lemmas about the flag computations. -/

theorem getD_range_map {α : Type} (f : Nat → α) {d i : Nat} (a : α) (h : i < d) :
    ((List.range d).map f).getD i a = f i := by
  rw [List.getD_eq_getElem?_getD, List.getElem?_map, List.getElem?_range h]
  rfl

theorem compute_is_last_own (d : Nat) (rest : List Entry) (hd : 0 < d) :
    (compute_is_last d rest).getD (d - 1) false =
      (match rest.head? with
       | some e2 => decide (e2.depth < d)
       | none => true) := by
  unfold compute_is_last
  rw [if_neg (by omega), getD_range_map _ _ (by omega), if_pos rfl]

theorem compute_is_last_ancestor (d a : Nat) (rest : List Entry)
    (h1 : 1 ≤ a) (h2 : a < d) :
    (compute_is_last d rest).getD (a - 1) false =
      !(rest.any fun e2 => e2.depth == a) := by
  unfold compute_is_last
  rw [if_neg (by omega), getD_range_map _ _ (by omega), if_neg (by omega)]
  have ha : a - 1 + 1 = a := by omega
  rw [ha]

theorem stream_step_own (S : List Bool) (d : Nat) (nd : Option Nat) (hd : 0 < d) :
    (stream_step S d nd).1.getD (d - 1) false =
      (match nd with
       | some k => decide (k < d)
       | none => true) := by
  unfold stream_step
  simp only
  rw [getD_range_map _ _ (by omega), if_neg (by omega)]

theorem spec_is_last_eq (depths : List Nat) (d : Nat) :
    spec_is_last depths d =
      (match depths with
       | [] => true
       | x :: _ => decide (x < d)) := by
  unfold spec_is_last
  cases depths with
  | nil => rfl
  | cons x xs =>
    by_cases h : d ≤ x
    · simp only [List.takeWhile_cons, decide_eq_true_eq, if_pos h]
      simp only [List.isEmpty_cons]
      have : ¬ x < d := by omega
      simp [this]
    · simp only [List.takeWhile_cons, decide_eq_true_eq, if_neg h]
      have : x < d := by omega
      simp [this]

theorem clm_getD_append (l1 : List Entry) (e : Entry) (l2 : List Entry) :
    (compute_last_child_map (l1 ++ e :: l2)).getD l1.length [] =
      compute_is_last e.depth l2 := by
  induction l1 with
  | nil => rfl
  | cons x xs ih => simpa [compute_last_child_map] using ih

/-- Claim C2 (amended): for the entry at position `l1.length` (depth `d > 0`)
of a pre-order sequence, the computed own-depth flag (slot `d-1`) is true iff
no later entry has depth `>= d` before an entry of depth `< d` appears — the
claimed condition — and the same holds for the streaming writer's own-depth
flag; but for an ancestor depth `a` (`1 <= a < d`), the two-pass flag (slot
`a-1`) is instead true iff no later entry has depth exactly `a`. -/
theorem claim_C2_amended (l1 l2 : List Entry) (e : Entry) (hd : 0 < e.depth) :
    ((compute_last_child_map (l1 ++ e :: l2)).getD l1.length []).getD
        (e.depth - 1) false =
      spec_is_last (l2.map Entry.depth) e.depth ∧
    (∀ a, 1 ≤ a → a < e.depth →
      (((compute_last_child_map (l1 ++ e :: l2)).getD l1.length []).getD
          (a - 1) false = true ↔ ∀ e2 ∈ l2, e2.depth ≠ a)) ∧
    (∀ S : List Bool,
      (stream_step S e.depth ((l2.map Entry.depth).head?)).1.getD
          (e.depth - 1) false =
        spec_is_last (l2.map Entry.depth) e.depth) := by
  rw [clm_getD_append]
  refine ⟨?_, ?_, ?_⟩
  · rw [compute_is_last_own e.depth l2 hd, spec_is_last_eq]
    cases l2 with
    | nil => rfl
    | cons y ys => rfl
  · intro a h1 h2
    rw [compute_is_last_ancestor e.depth a l2 h1 h2]
    simp [List.any_eq_true]
  · intro S
    rw [stream_step_own S e.depth _ hd, spec_is_last_eq]
    cases l2 with
    | nil => rfl
    | cons y ys => rfl

/-- Claim C2 witness: the theorem applied at a concrete three-entry sequence. -/
theorem claim_C2_witness :
    ((compute_last_child_map
        ([⟨["r", "a"], 1, true, none⟩] ++
          ⟨["r", "a", "b"], 2, true, none⟩ :: [⟨["r", "a", "b", "c"], 3, false, some 5⟩])).getD
        1 []).getD 1 false =
      spec_is_last ([(⟨["r", "a", "b", "c"], 3, false, some 5⟩ : Entry)].map Entry.depth) 2 :=
  (claim_C2_amended [⟨["r", "a"], 1, true, none⟩]
      [⟨["r", "a", "b", "c"], 3, false, some 5⟩]
      ⟨["r", "a", "b"], 2, true, none⟩ (by decide)).1

/-- Claim C2 counterexample: in the depth sequence `[1, 2, 3]`, the entry at
index 1 (depth 2) gets ancestor-depth-1 flag `true` from
`compute_last_child_map`, yet a later entry of depth `3 >= 1` appears before
any entry of depth `< 1`, so the claimed iff (with depth `>= a`) is false at
ancestor depths. -/
theorem claim_C2_counterexample :
    ((compute_last_child_map
        [⟨["r", "a"], 1, true, none⟩, ⟨["r", "a", "b"], 2, true, none⟩,
          ⟨["r", "a", "b", "c"], 3, false, some 5⟩]).getD 1 []).getD 0 false = true ∧
    spec_is_last
      (([(⟨["r", "a"], 1, true, none⟩ : Entry), ⟨["r", "a", "b"], 2, true, none⟩,
          ⟨["r", "a", "b", "c"], 3, false, some 5⟩].drop 2).map Entry.depth) 1 = false := by
  decide

/-- Claim C8: for a surviving non-directory entry whose metadata read fails,
the renderer produces the same line as for a successful zero-byte read — the
line shows `format_file_size 0` — and rendering is total (it never turns a
metadata failure into a render failure); likewise for the `ignore` walker's
line printer with both a failed file-type probe and a failed size lookup. -/
theorem claim_C8_metadata_failure (e : Entry) (ie : IgnoreEntry) (ind : String)
    (uc : Bool) (hfile : e.isDir = false) (hfail : e.metadataSize = none)
    (hift : ie.fileTypeIsDir.getD false = false)
    (hifail : ie.fsMetadataSize = none) :
    print_entry_line e ind uc =
      print_entry_line ⟨e.path, e.depth, e.isDir, some 0⟩ ind uc ∧
    print_entry_line e ind uc =
      ind ++ (format_file_name e.name uc ++ " (" ++
        format_size_colored (format_file_size 0) uc ++ ")") ∧
    print_entry_line_ignore ie ind uc =
      print_entry_line_ignore ⟨ie.path, ie.depth, ie.fileTypeIsDir, some 0⟩ ind uc := by
  refine ⟨?_, ?_, ?_⟩
  · simp [print_entry_line, entry_line_body, Entry.name, hfile, hfail]
  · simp [print_entry_line, entry_line_body, hfile, hfail]
  · simp [print_entry_line_ignore, IgnoreEntry.name, hift, hifail]

/-- Claim C8 witness: the theorem applied at a concrete failed-metadata file
entry. -/
theorem claim_C8_witness :
    print_entry_line ⟨["r", "f"], 1, false, none⟩ ("") false =
      print_entry_line ⟨["r", "f"], 1, false, some 0⟩ ("") false :=
  (claim_C8_metadata_failure ⟨["r", "f"], 1, false, none⟩
      ⟨["r", "f"], 1, none, none⟩ ("") false rfl rfl rfl rfl).1

/-! Comparison of the streaming renderer with the two-pass renderer. -/

/-- The own-depth last-child decision both renderers make for the entry at
position `idx`: true iff the next entry (if any) is strictly shallower. -/
def own_last_at (entries : List Entry) (idx : Nat) : Bool :=
  match (entries.drop (idx + 1)).head? with
  | some e2 => decide (e2.depth < (entries.getD idx default).depth)
  | none => true

/-- The common tail of the line rendered for the entry at position `idx`:
its own branch glyph (absent at depth 0) followed by the name/size text. -/
def line_tail (cs : CharacterSet) (use_color : Bool) (entries : List Entry)
    (idx : Nat) : String :=
  (if (entries.getD idx default).depth = 0 then ("")
   else if own_last_at entries idx then cs.branch_last else cs.branch_middle) ++
    entry_line_body (entries.getD idx default) use_color

theorem line_tail_cons (cs : CharacterSet) (uc : Bool) (e : Entry)
    (rest : List Entry) (idx : Nat) :
    line_tail cs uc (e :: rest) (idx + 1) = line_tail cs uc rest idx := by
  simp [line_tail, own_last_at]

theorem head_line_decompose (cs : CharacterSet) (uc : Bool) (e : Entry)
    (rest : List Entry) (flags : List Bool)
    (hown : e.depth ≠ 0 → flags.getD (e.depth - 1) false = own_last_at (e :: rest) 0) :
    ∃ p, print_entry_line e (generate_indent cs e.depth flags) uc =
      p ++ line_tail cs uc (e :: rest) 0 := by
  by_cases hd : e.depth = 0
  · refine ⟨(""), ?_⟩
    simp [print_entry_line, generate_indent, line_tail, hd]
  · refine ⟨indent_columns cs e.depth flags, ?_⟩
    rw [print_entry_line, generate_indent, if_neg hd, line_tail, hown hd]
    have h0 : (((e :: rest).getD 0 default)) = e := rfl
    rw [h0, if_neg hd, String.append_assoc]

theorem stream_go_decompose (cs : CharacterSet) (uc : Bool) :
    ∀ (entries : List Entry) (S : List Bool),
      (stream_go cs uc S entries).length = entries.length ∧
      ∀ idx, idx < entries.length →
        ∃ p, (stream_go cs uc S entries).getD idx ("") =
          p ++ line_tail cs uc entries idx := by
  intro entries
  induction entries with
  | nil =>
    intro S
    refine ⟨rfl, ?_⟩
    intro idx h
    simp at h
  | cons e rest ih =>
    intro S
    constructor
    · simp [stream_go, (ih _).1]
    · intro idx hidx
      cases idx with
      | zero =>
        have hgo : (stream_go cs uc S (e :: rest)).getD 0 ("") =
            print_entry_line e
              (generate_indent cs e.depth
                (stream_step S e.depth (rest.head?.map Entry.depth)).1) uc := rfl
        rw [hgo]
        refine head_line_decompose cs uc e rest _ ?_
        intro hd
        rw [stream_step_own _ _ _ (by omega)]
        unfold own_last_at
        cases rest with
        | nil => rfl
        | cons y ys => rfl
      | succ k =>
        obtain ⟨p, hp⟩ :=
          (ih (stream_step S e.depth (rest.head?.map Entry.depth)).2).2 k
            (by simpa using hidx)
        refine ⟨p, ?_⟩
        rw [← line_tail_cons cs uc e rest k] at hp
        exact hp

theorem print_tree_no_pattern (cs : CharacterSet) (uc : Bool)
    (entries : List Entry) :
    print_tree cs entries none [] uc =
      List.zipWith
        (fun e fl => print_entry_line e (generate_indent cs e.depth fl) uc)
        entries (compute_last_child_map entries) := by
  unfold print_tree
  have : (entries.filter fun e => should_print_entry e none [] true) = entries := by
    simp [should_print_entry]
  rw [this]

theorem two_pass_decompose (cs : CharacterSet) (uc : Bool) :
    ∀ (entries : List Entry),
      (print_tree cs entries none [] uc).length = entries.length ∧
      ∀ idx, idx < entries.length →
        ∃ p, (print_tree cs entries none [] uc).getD idx ("") =
          p ++ line_tail cs uc entries idx := by
  intro entries
  rw [print_tree_no_pattern]
  induction entries with
  | nil =>
    refine ⟨rfl, ?_⟩
    intro idx h
    simp at h
  | cons e rest ih =>
    constructor
    · have hlen : (compute_last_child_map (e :: rest)).length = (e :: rest).length := by
        clear ih
        induction (e :: rest) with
        | nil => rfl
        | cons x xs ihx => simp [compute_last_child_map, ihx]
      simp [compute_last_child_map, List.length_zipWith]
      have hlen2 : (compute_last_child_map rest).length = rest.length := by
        simpa [compute_last_child_map] using hlen
      omega
    · intro idx hidx
      cases idx with
      | zero =>
        have hz : (List.zipWith
            (fun e fl => print_entry_line e (generate_indent cs e.depth fl) uc)
            (e :: rest) (compute_last_child_map (e :: rest))).getD 0 ("") =
            print_entry_line e
              (generate_indent cs e.depth (compute_is_last e.depth rest)) uc := rfl
        rw [hz]
        refine head_line_decompose cs uc e rest _ ?_
        intro hd
        rw [compute_is_last_own _ _ (by omega)]
        unfold own_last_at
        cases rest with
        | nil => rfl
        | cons y ys => rfl
      | succ k =>
        obtain ⟨p, hp⟩ := ih.2 k (by simpa using hidx)
        refine ⟨p, ?_⟩
        rw [← line_tail_cons cs uc e rest k] at hp
        exact hp

/-- Claim C1 (amended): for every sequence of surviving entries, the streaming
single-pass renderer and the two-pass renderer produce the same number of
lines, and each pair of corresponding lines agrees on everything from the
entry's own branch glyph on (glyph plus name/size text); the renderers are
not equal in general, because the ancestor-column glyphs are computed
differently (the streaming stack marks an ancestor column as continuation
whenever that ancestor was followed by a deeper entry, while the two-pass map
marks it blank iff no later entry has exactly that depth). -/
theorem claim_C1_amended (cs : CharacterSet) (uc : Bool) (entries : List Entry) :
    (write_streaming cs uc entries).length = entries.length ∧
    (print_tree cs entries none [] uc).length = entries.length ∧
    ∀ idx, idx < entries.length →
      ∃ p q : String,
        (write_streaming cs uc entries).getD idx ("") =
          p ++ line_tail cs uc entries idx ∧
        (print_tree cs entries none [] uc).getD idx ("") =
          q ++ line_tail cs uc entries idx := by
  refine ⟨(stream_go_decompose cs uc entries []).1, (two_pass_decompose cs uc entries).1, ?_⟩
  intro idx hidx
  obtain ⟨p, hp⟩ := (stream_go_decompose cs uc entries []).2 idx hidx
  obtain ⟨q, hq⟩ := (two_pass_decompose cs uc entries).2 idx hidx
  exact ⟨p, q, hp, hq⟩

/-- Claim C1 witness: the theorem applied at a concrete two-entry sequence. -/
theorem claim_C1_witness :
    ∃ p q : String,
      (write_streaming .Unicode false
          [⟨["r", "a"], 1, true, none⟩, ⟨["r", "a", "b"], 2, false, some 10⟩]).getD 1 ("") =
        p ++ line_tail .Unicode false
          [⟨["r", "a"], 1, true, none⟩, ⟨["r", "a", "b"], 2, false, some 10⟩] 1 ∧
      (print_tree .Unicode
          [⟨["r", "a"], 1, true, none⟩, ⟨["r", "a", "b"], 2, false, some 10⟩]
          none [] false).getD 1 ("") =
        q ++ line_tail .Unicode false
          [⟨["r", "a"], 1, true, none⟩, ⟨["r", "a", "b"], 2, false, some 10⟩] 1 :=
  (claim_C1_amended .Unicode false
      [⟨["r", "a"], 1, true, none⟩, ⟨["r", "a", "b"], 2, false, some 10⟩]).2.2
    1 (by decide)

/-- Claim C1 counterexample: on the pre-order sequence "directory `a` at depth
1, file `b` at depth 2" (with the same Unicode charset and color setting on
both sides), the streaming renderer indents `b` with a continuation column
while the two-pass renderer indents it with a blank column, so the rendered
lines differ. -/
theorem claim_C1_counterexample :
    write_streaming .Unicode false
        [⟨["r", "a"], 1, true, none⟩, ⟨["r", "a", "b"], 2, false, some 10⟩] ≠
      print_tree .Unicode
        [⟨["r", "a"], 1, true, none⟩, ⟨["r", "a", "b"], 2, false, some 10⟩]
        none [] false := by
  decide

/-! Structured (JSON) output: `JsonTreeBuilder` (src/output/printer.rs:130-198). -/

/-- A node of the JSON document: `{name, type, path, size?, children?}`.
A field that the Rust code leaves out of the `serde_json` object is `none`. -/
structure JsonNode where
  name : String
  type : String
  path : FsPath
  size : Option Nat
  children : Option (List JsonNode)

/-- Count of the proper descendants of `q` among the entry paths; the
termination measure of `build_children`. -/
def desc_count (entries : List Entry) (q : FsPath) : Nat :=
  (entries.filter fun e => decide (q <+: e.path) && decide (q ≠ e.path)).length

theorem length_filter_le_of_imp {α : Type} (l : List α) (p q : α → Bool)
    (himp : ∀ y, p y = true → q y = true) :
    (l.filter p).length ≤ (l.filter q).length := by
  induction l with
  | nil => simp
  | cons a l' ih =>
    by_cases hpa : p a = true
    · rw [List.filter_cons_of_pos hpa, List.filter_cons_of_pos (himp a hpa)]
      simpa using ih
    · rw [List.filter_cons_of_neg (by simpa using hpa)]
      rcases Bool.eq_false_or_eq_true (q a) with hqa | hqa
      · rw [List.filter_cons_of_pos hqa]
        simp only [List.length_cons]
        omega
      · rw [List.filter_cons_of_neg (by simp [hqa])]
        exact ih

theorem length_filter_lt {α : Type} (l : List α) (p q : α → Bool) (x : α)
    (hx : x ∈ l) (himp : ∀ y, p y = true → q y = true)
    (hxq : q x = true) (hxp : p x = false) :
    (l.filter p).length < (l.filter q).length := by
  induction l with
  | nil => simp at hx
  | cons a l' ih =>
    rcases List.mem_cons.mp hx with rfl | hx'
    · rw [List.filter_cons_of_neg (by simp [hxp]), List.filter_cons_of_pos hxq]
      simp only [List.length_cons]
      exact Nat.lt_succ_of_le (length_filter_le_of_imp l' p q himp)
    · by_cases hpa : p a = true
      · rw [List.filter_cons_of_pos hpa, List.filter_cons_of_pos (himp a hpa)]
        simpa using ih hx'
      · rw [List.filter_cons_of_neg (by simpa using hpa)]
        rcases Bool.eq_false_or_eq_true (q a) with hqa | hqa
        · rw [List.filter_cons_of_pos hqa]
          simp only [List.length_cons]
          exact Nat.lt_succ_of_lt (ih hx')
        · rw [List.filter_cons_of_neg (by simp [hqa])]
          exact ih hx'

theorem desc_count_lt (entries : List Entry) (e : Entry) (pp : FsPath)
    (he : e ∈ entries) (hpar : parent? e.path = some pp) :
    desc_count entries e.path < desc_count entries pp := by
  have hne : e.path ≠ [] := by
    intro h
    rw [parent?, if_pos (by simp [h])] at hpar
    simp at hpar
  have hpp : pp = e.path.dropLast := by
    rw [parent?, if_neg (by simp [hne])] at hpar
    exact (Option.some_injective _ hpar).symm
  have hlen : pp.length < e.path.length := by
    rw [hpp, List.length_dropLast]
    have := List.length_pos.mpr hne
    omega
  have hppre : pp <+: e.path := by
    rw [hpp]
    exact List.dropLast_prefix e.path
  refine length_filter_lt entries _ _ e he ?_ ?_ ?_
  · intro y hy
    simp only [Bool.and_eq_true, decide_eq_true_eq] at hy ⊢
    obtain ⟨hy1, hy2⟩ := hy
    have hylen : e.path.length ≤ y.path.length := by
      obtain ⟨t, ht⟩ := hy1
      rw [← ht, List.length_append]
      omega
    constructor
    · exact hppre.trans hy1
    · intro h
      rw [← h] at hylen
      omega
  · simp only [Bool.and_eq_true, decide_eq_true_eq]
    refine ⟨hppre, ?_⟩
    intro h
    rw [h] at hlen
    omega
  · simp

/-- Embeds `JsonTreeBuilder::build_children` (src/output/printer.rs:148-197):
iterate the full entry list, keep the entries whose parent is `parent_path`
and (when a pattern is active) which pass `should_print_entry`, and turn each
into a node; a directory node gets a `children` field only when its recursive
subtree is non-empty or no search pattern is active. -/
def build_children (entries : List Entry) (pat : Option String)
    (show_dirs : List FsPath) (show_all : Bool) (parent_path : FsPath) :
    List JsonNode :=
  (entries.filter fun e =>
      (parent? e.path == some parent_path) &&
      (match pat with
       | some p => should_print_entry e (some p) show_dirs show_all
       | none => true)).attach.map
    fun pe =>
      JsonNode.mk pe.1.name
        (if pe.1.isDir then ("directory") else ("file"))
        pe.1.path
        (if pe.1.isDir then none else pe.1.metadataSize)
        (if pe.1.isDir then
          if !(build_children entries pat show_dirs show_all pe.1.path).isEmpty
              || pat.isNone then
            some (build_children entries pat show_dirs show_all pe.1.path)
          else none
         else none)
termination_by desc_count entries parent_path
decreasing_by
  all_goals
    obtain ⟨hmem, hcond⟩ := List.mem_filter.mp pe.2
    refine desc_count_lt entries pe.1 parent_path hmem ?_
    simp only [Bool.and_eq_true, beq_iff_eq] at hcond
    exact hcond.1

/-- Embeds `JsonTreeBuilder::build` (src/output/printer.rs:133-146): the top
node is always a directory node with an unconditional `children` field; its
`name` is the root path's final component (the `file_name()`-vs-whole-path
fallback of the source is irrelevant to the claims). -/
def JsonTreeBuilder_build (entries : List Entry) (pat : Option String)
    (show_dirs : List FsPath) (show_all : Bool) (root_path : FsPath) : JsonNode :=
  JsonNode.mk (root_path.getLastD (""))
    ("directory")
    root_path
    none
    (some (build_children entries pat show_dirs show_all root_path))

/-- Claim C3 (amended): among the nodes produced by `build_children`, a file
node never has a `children` field, and a directory node omits its `children`
field exactly when its recursive subtree is empty and a search pattern is
active (so with no active pattern every directory node carries a possibly
empty `children` field); the exception is the top-level node built by
`JsonTreeBuilder::build`, which always carries a `children` field — even when
a pattern is active and nothing matches. -/
theorem claim_C3_amended (entries : List Entry) (pat : Option String)
    (sd : List FsPath) (sa : Bool) :
    (∀ pp : FsPath, ∀ node ∈ build_children entries pat sd sa pp,
      (node.type = "file" → node.children = none) ∧
      (node.type = "directory" →
        (node.children = none ↔
          pat.isSome = true ∧ build_children entries pat sd sa node.path = []))) ∧
    (∀ root_path : FsPath,
      (JsonTreeBuilder_build entries pat sd sa root_path).children =
        some (build_children entries pat sd sa root_path)) := by
  constructor
  · intro pp node hmem
    rw [build_children.eq_def] at hmem
    rw [List.mem_map] at hmem
    obtain ⟨pe, hpe, rfl⟩ := hmem
    by_cases hdir : pe.1.isDir = true
    · constructor
      · intro htype
        simp only [hdir, if_true] at htype
        exact absurd htype (by decide)
      · intro _
        simp only [hdir, if_true]
        cases pat with
        | none => simp
        | some p =>
          by_cases hemp :
              (build_children entries (some p) sd sa pe.1.path).isEmpty = true
          · rw [List.isEmpty_iff] at hemp
            simp [hemp]
          · rw [Bool.not_eq_true, List.isEmpty_eq_false_iff_exists_mem] at hemp
            obtain ⟨x, hx⟩ := hemp
            have hne : build_children entries (some p) sd sa pe.1.path ≠ [] := by
              intro h
              rw [h] at hx
              simp at hx
            have hne2 :
                (build_children entries (some p) sd sa pe.1.path).isEmpty = false := by
              rw [List.isEmpty_eq_false_iff_exists_mem]
              exact ⟨x, hx⟩
            simp [hne2, hne]
    · have hdir' : pe.1.isDir = false := by
        revert hdir
        cases pe.1.isDir <;> simp
      constructor
      · intro _
        simp [hdir']
      · intro htype
        simp only [hdir', Bool.false_eq_true, if_false] at htype
        exact absurd htype (by decide)
  · intro root_path
    rfl

/-- Claim C3 witness: the theorem applied at a concrete one-directory entry
collection with an active pattern matching the directory. -/
theorem claim_C3_witness :
    ((JsonNode.mk ("a") ("directory") ["r", "a"] none none).type = "file" →
      (JsonNode.mk ("a") ("directory") ["r", "a"] none none).children = none) ∧
    ((JsonNode.mk ("a") ("directory") ["r", "a"] none none).type = "directory" →
      ((JsonNode.mk ("a") ("directory") ["r", "a"] none none).children = none ↔
        (some ("a") : Option String).isSome = true ∧
        build_children [⟨["r", "a"], 1, true, none⟩] (some "a") [] true
          (JsonNode.mk ("a") ("directory") ["r", "a"] none none).path = [])) :=
  (claim_C3_amended [⟨["r", "a"], 1, true, none⟩] (some "a") [] true).1 ["r"]
    (JsonNode.mk ("a") ("directory") ["r", "a"] none none)
    (by
      have hval : build_children [⟨["r", "a"], 1, true, none⟩] (some "a") [] true ["r"] =
          [JsonNode.mk ("a") ("directory") ["r", "a"] none none] := by
        rw [build_children.eq_def]
        have hf : ([(⟨["r", "a"], 1, true, none⟩ : Entry)].filter fun e =>
            (parent? e.path == some ["r"]) &&
            (match (some ("a") : Option String) with
             | some p => should_print_entry e (some p) [] true
             | none => true)) = [⟨["r", "a"], 1, true, none⟩] := by decide
        rw [hf]
        simp only [List.attach, List.attachWith, List.map]
        have hsub : build_children [⟨["r", "a"], 1, true, none⟩] (some "a") [] true
            ["r", "a"] = [] := by
          rw [build_children.eq_def]
          have hf2 : ([(⟨["r", "a"], 1, true, none⟩ : Entry)].filter fun e =>
              (parent? e.path == some ["r", "a"]) &&
              (match (some ("a") : Option String) with
               | some p => should_print_entry e (some p) [] true
               | none => true)) = [] := by decide
          rw [hf2]
          rfl
        simp [Entry.name, hsub]
      rw [hval]
      simp)

/-- Claim C3 counterexample: in structured mode on an empty directory with an
active pattern and no matches anywhere, the top node still carries a
`children` key (with an empty array), contradicting the claim that it has no
`children` key at all. -/
theorem claim_C3_counterexample :
    (JsonTreeBuilder_build [] (some "x") [] true ["r"]).children = some [] := by
  rw [JsonTreeBuilder_build, build_children.eq_def]
  simp

/-! Walker model: `collect_entries` (src/core/tree.rs:7-15) over an abstract
filesystem tree, and `effective_depth` (src/cli/args.rs:48-54). -/

end Lst
